import Mathlib

/-!
Shallow embedding of the EduPath course-catalog engine
(`engine/binary_search.py`, `engine/loader.py`, `engine/prerequisite.py`,
`engine/recommender.py`) together with proofs of the specified properties.

Conventions of the embedding:
* a Python course dict becomes the structure `Course`; `est_hours` is an `Int`
  (the engine coerces with `int(...)` before summing) and `course_rating` a
  rational (the engine only compares ratings, never does float arithmetic on
  them, so `ℚ` is an order-faithful model of the float field);
* a Python dict keyed by course id becomes an association list built by
  pushing entries at the front, looked up by first match — later insertions
  overwrite earlier ones exactly as in a Python dict;
* fallible list indexing is modelled with an `Option` sentinel: `none` stands
  for an access outside `[0, len)` (the safety claims prove it never occurs).
-/

namespace EduPath

structure Course where
  course_id : Int
  course_title : String
  category : String
  course_organization : String
  course_difficulty : String
  est_hours : Int
  course_rating : ℚ
  prerequisite_ids : List Int
deriving DecidableEq, Inhabited

/-- A Python dict `{course_id: course}` as an association list; first match
wins on lookup, so pushing at the front on insert gives dict overwrite
semantics. -/
abbrev Index := List (Int × Course)

/-- Dict-style lookup, as in `courses_index.get(pid)`. -/
def indexFind (idx : Index) (k : Int) : Option Course :=
  (idx.find? (fun p => p.1 == k)).map Prod.snd

/-- Embeds `loader.build_course_index`: a dict comprehension keyed by
course id, later duplicates overwriting earlier entries. -/
def build_course_index (courses : List Course) : Index :=
  courses.foldl (fun m c => (c.course_id, c) :: m) []

/-- A guarded `courses_list[mid]`: `none` models an index outside `[0, len)`
(the claims under proof assert such an access never happens). -/
def listGetChecked (l : List Course) (i : Int) : Option Course :=
  if 0 ≤ i ∧ i < l.length then l.get? i.toNat else none

/-- Loop of `binary_search.binary_search`: state `(left, right)`, guard
`left <= right`, `mid = (left + right) // 2` (Lean's `Int` division by a
positive literal is floor division, as in Python).  Outer `none` = an
out-of-bounds access, `some r` = normal return with result `r`. -/
def bsAux (l : List Course) (target_id : Int) (left right : Int) :
    Option (Option Course) :=
  if _h : left ≤ right then
    let mid := (left + right) / 2
    match listGetChecked l mid with
    | none => none
    | some c =>
      if c.course_id = target_id then some (some c)
      else if c.course_id < target_id then bsAux l target_id (mid + 1) right
      else bsAux l target_id left (mid - 1)
  else
    some none
termination_by (right + 1 - left).toNat
decreasing_by
  all_goals omega

/-- Embeds `binary_search.binary_search`: the loop starts from
`left, right = 0, len(courses_list) - 1`. -/
def binary_search (courses_list : List Course) (target_id : Int) :
    Option (Option Course) :=
  bsAux courses_list target_id 0 ((courses_list.length : Int) - 1)

/-- State produced by one pass of the inner `for pid in current_frontier`
loop of `prerequisite.get_learning_path`. -/
structure FrontierStep where
  seen : List Int
  level : List Course
  next : List Int
  cyc : Bool
deriving DecidableEq

/-- One pass of the inner frontier loop: a pid already in `seen` sets the
cycle flag and is skipped; a pid absent from the index is skipped silently;
otherwise the pid joins `seen`, its course joins the level, and the course's
prerequisites not in the updated `seen` are queued for the next frontier. -/
def processFrontier (idx : Index) : List Int → List Int → FrontierStep
  | [], seen => ⟨seen, [], [], false⟩
  | pid :: rest, seen =>
    if pid ∈ seen then
      let r := processFrontier idx rest seen
      { r with cyc := true }
    else
      match indexFind idx pid with
      | none => processFrontier idx rest seen
      | some course =>
        let seen' := pid :: seen
        let r := processFrontier idx rest seen'
        { seen := r.seen
          level := course :: r.level
          next := course.prerequisite_ids.filter (fun s => !seen'.contains s) ++ r.next
          cyc := r.cyc }

/-- The outer `while current_frontier and depth < max_depth` loop; the fuel
is `max_depth - depth`.  Returns the accumulated levels (empty levels are not
appended) and the cycle flag. -/
def bfsLoop (idx : Index) : Nat → List Int → List Int → List (List Course) × Bool
  | 0, _, _ => ([], false)
  | fuel + 1, frontier, seen =>
    if frontier.isEmpty then ([], false)
    else
      let r := processFrontier idx frontier seen
      let rest := bfsLoop idx fuel r.next r.seen
      ((if r.level.isEmpty then rest.1 else r.level :: rest.1), r.cyc || rest.2)

/-- Inner loop of the flat-path construction: append each course of a level
whose id has not been emitted yet. -/
def flattenCourses : List Course → List Int → List Course × List Int
  | [], seenF => ([], seenF)
  | c :: cs, seenF =>
    if c.course_id ∈ seenF then flattenCourses cs seenF
    else
      let r := flattenCourses cs (c.course_id :: seenF)
      (c :: r.1, r.2)

/-- Walk the (already reversed) levels, emitting each course id once. -/
def flattenLevels : List (List Course) → List Int → List Course
  | [], _ => []
  | level :: rest, seenF =>
    let r := flattenCourses level seenF
    r.1 ++ flattenLevels rest r.2

/-- The `flat_path` of `get_learning_path`: deepest level first, ids deduplicated
in order of first emission. -/
def buildFlatPath (levels : List (List Course)) : List Course :=
  flattenLevels levels.reverse []

structure PathResult where
  target : Course
  levels : List (List Course)
  flat_path : List Course
  total_hours : Int
  cycle_detected : Bool
deriving DecidableEq, Inhabited

/-- Embeds `prerequisite.get_learning_path`: `None` when the target id is absent,
otherwise the BFS walk capped at `max_depth`, the flattened path and the hour
total over it. -/
def get_learning_path (course_id : Int) (courses_index : Index)
    (max_depth : Nat := 20) : Option PathResult :=
  match indexFind courses_index course_id with
  | none => none
  | some target =>
    let bfs := bfsLoop courses_index max_depth target.prerequisite_ids []
    let flat := buildFlatPath bfs.1
    some { target := target
           levels := bfs.1
           flat_path := flat
           total_hours := (flat.map (fun c => c.est_hours)).sum
           cycle_detected := bfs.2 }

/-- Order-preserving de-duplication keeping first occurrences (the spec's
"deduplicated, order-preserving" reading of a frontier). -/
def dedupFirst : List Int → List Int
  | [] => []
  | x :: xs => x :: dedupFirst (xs.filter (fun y => y ≠ x))
termination_by l => l.length
decreasing_by
  exact Nat.lt_succ_of_le (List.length_filter_le _ _)

/-- Embeds `recommender._id_to_index`: a dict comprehension mapping each
course id to its position, later duplicates overwriting earlier ones. -/
def idToIndex (courses : List Course) (k : Int) : Option Nat :=
  ((courses.enum.foldl (fun m p => (p.2.course_id, p.1) :: m) []).find?
    (fun q => q.1 == k)).map Prod.snd

/-- State set up by `recommender.init_recommender`: the course list and the
pairwise similarity matrix (the numeric cosine values are abstract data here;
every claim under proof holds for an arbitrary score matrix of the right
shape). -/
structure RecModel where
  courses : List Course
  sim : List (List ℚ)

/-- Embeds `recommender.get_similar_courses`: look the id up, take the id's
similarity row, sort `(index, score)` pairs by score descending (Python's
`sorted` is stable and `reverse=True` keeps ties in original order, as does
`mergeSort` with a `≥`-style comparator), drop the queried index, truncate to
`top_k` and map indices back to courses. -/
def get_similar_courses (m : RecModel) (course_id : Int) (top_k : Nat) :
    List Course :=
  match idToIndex m.courses course_id with
  | none => []
  | some idx =>
    let row := m.sim.getD idx []
    let scores := row.enum
    let sorted := scores.mergeSort (fun a b => decide (b.2 ≤ a.2))
    let kept := sorted.filter (fun p => p.1 ≠ idx)
    (kept.take top_k).map (fun p => m.courses.getD p.1 default)

/-- Python's `needle in hay` on strings (substring containment). -/
def containsSub (hay needle : String) : Bool :=
  decide (needle.toList <:+: hay.toList)

/-- The four optional filters of `recommender.recommend_by_filters`, applied
in source order.  `if category:` is Python truthiness: `None` and the empty
string both skip the filter. -/
def applyFilters (courses_list : List Course) (category : Option String)
    (difficulty : Option String) (max_hours : Option ℚ)
    (min_rating : Option ℚ) : List Course :=
  let l1 := match category with
    | some s =>
      if s.isEmpty then courses_list
      else courses_list.filter (fun c => containsSub c.category.toLower s.toLower)
    | none => courses_list
  let l2 := match difficulty with
    | some s =>
      if s.isEmpty then l1
      else l1.filter (fun c => containsSub c.course_difficulty.toLower s.toLower)
    | none => l1
  let l3 := match max_hours with
    | some h => l2.filter (fun c => decide ((c.est_hours : ℚ) ≤ h))
    | none => l2
  let l4 := match min_rating with
    | some r => l3.filter (fun c => decide (r ≤ c.course_rating))
    | none => l3
  l4

/-- Embeds `recommender.recommend_by_filters`: filter, stable-sort by rating
descending, truncate to `top_k`. -/
def recommend_by_filters (courses_list : List Course) (category : Option String)
    (difficulty : Option String) (max_hours : Option ℚ)
    (min_rating : Option ℚ) (top_k : Nat) : List Course :=
  ((applyFilters courses_list category difficulty max_hours min_rating).mergeSort
    (fun a b => decide (b.course_rating ≤ a.course_rating))).take top_k

/-- Strict ascending sortedness by `course_id` — the precondition documented
for `binary_search` and established by the loader's sort. -/
def SortedById (l : List Course) : Prop :=
  l.Pairwise (fun a b => a.course_id < b.course_id)

/-! Concrete fixtures used to evaluate the definitions on the inputs named by
the testable properties. -/

/-- A course with the given id, hours and prerequisites (other fields held
fixed, as they play no role in path resolution or lookup). -/
def mkC (i : Int) (hrs : Int) (ps : List Int) : Course :=
  ⟨i, "t", "cat", "org", "easy", hrs, 0, ps⟩

/-- Cyclic catalog A→B→C→A (A = 1, B = 2, C = 3). -/
def cycIdx : Index := [(1, mkC 1 5 [2]), (2, mkC 2 6 [3]), (3, mkC 3 7 [1])]

/-- Two distinct courses sharing id 1. -/
def dupCourseA : Course := ⟨1, "first", "", "", "", 3, 0, []⟩

/-- Second course with id 1, differing from `dupCourseA` in every other
field. -/
def dupCourseB : Course := ⟨1, "second", "", "", "", 4, 1, []⟩

/-- Catalog whose target course 2 lists prerequisite 1 twice. -/
def c9DupIdx : Index := [(1, mkC 1 4 []), (2, mkC 2 6 [1, 1])]

/-- The same catalog with course 2's prerequisite list deduplicated. -/
def c9DedupIdx : Index := [(1, mkC 1 4 []), (2, mkC 2 6 [1])]

/-- A strictly id-sorted three-course list. -/
def bsList : List Course := [mkC 1 2 [], mkC 3 2 [], mkC 5 2 []]

/-- A linear prerequisite chain of depth 25: course i+1 requires course i. -/
def chainIdx : Index :=
  (List.range 25).map
    (fun i => (((i : Int) + 1), mkC ((i : Int) + 1) 1 (if i = 0 then [] else [(i : Int)])))

/-- A two-course similarity model with an explicit score matrix. -/
def simModel : RecModel :=
  ⟨[mkC 1 2 [], mkC 2 2 []], [[1, 1/2], [1/2, 1]]⟩

/-- Courses with varied categories, difficulties, hours and ratings for the
filter recommender. -/
def recCourses : List Course :=
  [⟨1, "a", "Math", "o", "Easy", 3, 2, []⟩,
   ⟨2, "b", "Math", "o", "Hard", 9, 5, []⟩,
   ⟨3, "c", "Science", "o", "Easy", 4, 5, []⟩]

/-! Theorems. -/

/-- Folding cons-insertions over a list reverses the mapped entries onto the
accumulator (shared shape of `build_course_index` and `_id_to_index`). -/
theorem foldl_cons_rev {α β : Type} (f : α → β) :
    ∀ (l : List α) (init : List β),
      l.foldl (fun m x => f x :: m) init = (l.map f).reverse ++ init := by
  intro l
  induction l with
  | nil => intro init; rfl
  | cons a rest ih =>
    intro init
    simp only [List.foldl_cons, List.map_cons, List.reverse_cons, List.append_assoc]
    rw [ih]
    rfl

/-- Looking a key up in the built index finds the last course of the input
list carrying that key (dict-overwrite semantics). -/
theorem indexFind_build_course_index (l : List Course) (k : Int) :
    indexFind (build_course_index l) k
      = l.reverse.find? (fun c => c.course_id == k) := by
  unfold indexFind build_course_index
  rw [foldl_cons_rev]
  rw [List.append_nil, ← List.map_reverse, List.find?_map]
  simp only [Function.comp_def]
  cases l.reverse.find? (fun c => c.course_id == k) <;> rfl

/-- C2, counterexample: building an index from two distinct courses that
share id 1 raises no error; the lookup silently yields the second course,
i.e. the duplicate overwrote the first. -/
theorem buildIndex_duplicate_overwrites :
    indexFind (build_course_index [dupCourseA, dupCourseB]) 1 = some dupCourseB
      ∧ dupCourseA ≠ dupCourseB :=
  ⟨rfl, by decide⟩

/-- C2, amended: catalog construction never fails on duplicate ids; the index
maps every id to the last course in the input carrying it (later duplicates
silently overwrite earlier ones). -/
theorem buildIndex_keeps_last_duplicate (l : List Course) (k : Int) :
    indexFind (build_course_index l) k
      = l.reverse.find? (fun c => c.course_id == k) :=
  indexFind_build_course_index l k

/-- C1: on the cyclic catalog A→B→C→A, resolving A terminates but the cycle
flag stays `false` and the flattened path is `[A, C, B]` — it contains the
target A itself, because the walk never seeds `seen` with the target. -/
theorem cycle_through_target_undetected :
    (get_learning_path 1 cycIdx 20).map
        (fun r => (r.flat_path.map (fun c => c.course_id), r.cycle_detected))
      = some ([1, 3, 2], false) := rfl

/-- C5: on the catalog {1: no prereqs, 2: [1], 3: [1, 2]}, resolving 3 yields
the single level [course 1, course 2], the flat path [course 1, course 2],
hour total `hours 1 + hours 2`, and no cycle. -/
theorem path_three_course_example (h1 h2 h3 : Int) :
    get_learning_path 3 [(1, mkC 1 h1 []), (2, mkC 2 h2 [1]), (3, mkC 3 h3 [1, 2])] 20
      = some ⟨mkC 3 h3 [1, 2], [[mkC 1 h1 [], mkC 2 h2 [1]]],
              [mkC 1 h1 [], mkC 2 h2 [1]], h1 + h2, false⟩ := by
  rw [show h1 + h2 = h1 + (h2 + 0) from by ring]
  rfl

/-- C6: a target present in the index with no prerequisites resolves to a
path with no levels, an empty flat path and zero total hours. -/
theorem path_empty_prereqs (idx : Index) (id : Int) (t : Course)
    (h : indexFind idx id = some t) (hp : t.prerequisite_ids = []) :
    get_learning_path id idx 20 = some ⟨t, [], [], 0, false⟩ := by
  simp only [get_learning_path, h, hp]
  rfl

/-- Closed instance of `path_empty_prereqs`. -/
theorem path_empty_prereqs_witness :
    get_learning_path 1 [(1, mkC 1 4 [])] 20 = some ⟨mkC 1 4 [], [], [], 0, false⟩ :=
  path_empty_prereqs [(1, mkC 1 4 [])] 1 (mkC 1 4 []) rfl rfl

/-- Each iteration of the BFS loop appends at most one level, so the number
of levels never exceeds the fuel. -/
theorem bfsLoop_levels_length_le (idx : Index) :
    ∀ (fuel : Nat) (frontier seen : List Int),
      (bfsLoop idx fuel frontier seen).1.length ≤ fuel := by
  intro fuel
  induction fuel with
  | zero => intro frontier seen; simp [bfsLoop]
  | succ n ih =>
    intro frontier seen
    simp only [bfsLoop]
    by_cases he : frontier.isEmpty
    · simp [he]
    · simp only [he, if_false]
      by_cases hl : (processFrontier idx frontier seen).level.isEmpty
      · simp only [hl, if_true]
        exact le_trans (ih _ _) (Nat.le_succ n)
      · simp only [hl, if_false, List.length_cons]
        exact Nat.succ_le_succ (ih _ _)

/-- C4: whatever the catalog (cyclic graphs and over-deep chains included),
`get_learning_path` with `max_depth = 20` is total and returns at most 20
levels. -/
theorem path_levels_capped (idx : Index) (id : Int) (r : PathResult)
    (h : get_learning_path id idx 20 = some r) : r.levels.length ≤ 20 := by
  unfold get_learning_path at h
  cases hf : indexFind idx id with
  | none => rw [hf] at h; exact absurd h (by simp)
  | some t =>
    rw [hf] at h
    simp only [Option.some.injEq] at h
    have : r.levels = (bfsLoop idx 20 t.prerequisite_ids []).1 := by
      rw [← h]
    rw [this]
    exact bfsLoop_levels_length_le idx 20 _ _

/-- Closed instance of `path_levels_capped` on a 25-deep chain. -/
theorem path_levels_capped_witness :
    ((get_learning_path 25 chainIdx 20).getD default).levels.length ≤ 20 :=
  path_levels_capped chainIdx 25 ((get_learning_path 25 chainIdx 20).getD default)
    (by rfl)

/-- C9, counterexample: duplicating the target's single prerequisite flips
`cycle_detected` from `false` to `true` while `c9DedupIdx` is exactly
`c9DupIdx` with the target's prerequisite list deduplicated. -/
theorem duplicate_prereq_sets_cycle_flag :
    (get_learning_path 2 c9DupIdx 20).map (fun r => r.cycle_detected) = some true
      ∧ (get_learning_path 2 c9DedupIdx 20).map (fun r => r.cycle_detected) = some false
      ∧ dedupFirst [1, 1] = [1] :=
  ⟨rfl, rfl, by simp [dedupFirst]⟩

/-- Every loop state with `0 ≤ left` and `right < length` completes without
an out-of-bounds access: the probed index `mid` always lies in `[0, len)`. -/
theorem bsAux_isSome (l : List Course) (t : Int) :
    ∀ (left right : Int), 0 ≤ left → right < l.length →
      (bsAux l t left right).isSome = true := by
  intro left right
  induction left, right using bsAux.induct l t with
  | case1 left right hlr mid hget =>
    intro h0 hlen
    exfalso
    have hmid0 : 0 ≤ mid := by omega
    have hmidlen : mid < l.length := by omega
    unfold listGetChecked at hget
    rw [if_pos ⟨hmid0, hmidlen⟩] at hget
    rw [List.get?_eq_none] at hget
    omega
  | case2 left right hlr mid c hget hc =>
    intro h0 hlen
    unfold bsAux
    simp only [dif_pos hlr, hget, if_pos hc, Option.isSome_some]
  | case3 left right hlr mid c hget hne hlt ih =>
    intro h0 hlen
    unfold bsAux
    simp only [dif_pos hlr, hget, if_neg hne, if_pos hlt]
    exact ih (by omega) hlen
  | case4 left right hlr mid c hget hne hge ih =>
    intro h0 hlen
    unfold bsAux
    simp only [dif_pos hlr, hget, if_neg hne, if_neg hge]
    exact ih h0 (by omega)
  | case5 left right hlr =>
    intro h0 hlen
    unfold bsAux
    simp only [dif_neg hlr, Option.isSome_some]

/-- C10: on every course list (any length, sorted or not) and every target,
`binary_search` terminates and never probes an index outside `[0, len)`. -/
theorem binary_search_safe (l : List Course) (t : Int) :
    (binary_search l t).isSome = true := by
  unfold binary_search
  exact bsAux_isSome l t 0 ((l.length : Int) - 1) le_rfl (by omega)

/-- On a strictly id-sorted list, the loop finds the element carrying the
target id whenever the window still contains its position. -/
theorem bsAux_found (l : List Course) (t : Int) (hs : SortedById l)
    (j : Nat) (hj : j < l.length) (hjt : (l.get ⟨j, hj⟩).course_id = t) :
    ∀ (left right : Int), 0 ≤ left → right < l.length →
      left ≤ (j : Int) → (j : Int) ≤ right →
      bsAux l t left right = some (some (l.get ⟨j, hj⟩)) := by
  have mono : ∀ (a b : Fin l.length), a < b →
      (l.get a).course_id < (l.get b).course_id :=
    fun a b hab => List.pairwise_iff_get.mp hs a b hab
  intro left right
  induction left, right using bsAux.induct l t with
  | case1 left right hlr mid hget =>
    intro h0 hlen hlj hjr
    exfalso
    unfold listGetChecked at hget
    rw [if_pos ⟨by omega, by omega⟩] at hget
    rw [List.get?_eq_none] at hget
    omega
  | case2 left right hlr mid c hget hc =>
    intro h0 hlen hlj hjr
    have hmlen : mid.toNat < l.length := by
      unfold listGetChecked at hget
      by_cases hcond : 0 ≤ mid ∧ mid < (l.length : Int)
      · omega
      · rw [if_neg hcond] at hget; exact absurd hget (by simp)
    have hcg : c = l.get ⟨mid.toNat, hmlen⟩ := by
      unfold listGetChecked at hget
      rw [if_pos ⟨by omega, by omega⟩] at hget
      obtain ⟨h', hg⟩ := List.get?_eq_some.mp hget
      exact hg.symm
    have hmj : mid.toNat = j := by
      by_contra hne
      rcases Nat.lt_or_ge mid.toNat j with hlt | hge
      · have := mono ⟨mid.toNat, hmlen⟩ ⟨j, hj⟩ hlt
        rw [← hcg, hjt, hc] at this
        exact lt_irrefl t this
      · have hgt : j < mid.toNat := by omega
        have := mono ⟨j, hj⟩ ⟨mid.toNat, hmlen⟩ hgt
        rw [← hcg, hjt, hc] at this
        exact lt_irrefl t this
    unfold bsAux
    simp only [dif_pos hlr, hget, if_pos hc]
    congr 2
    rw [hcg]
    congr 1
    exact Fin.ext hmj
  | case3 left right hlr mid c hget hne hlt ih =>
    intro h0 hlen hlj hjr
    have hmlen : mid.toNat < l.length := by
      unfold listGetChecked at hget
      by_cases hcond : 0 ≤ mid ∧ mid < (l.length : Int)
      · omega
      · rw [if_neg hcond] at hget; exact absurd hget (by simp)
    have hcg : c = l.get ⟨mid.toNat, hmlen⟩ := by
      unfold listGetChecked at hget
      rw [if_pos ⟨by omega, by omega⟩] at hget
      obtain ⟨h', hg⟩ := List.get?_eq_some.mp hget
      exact hg.symm
    have hmidj : mid.toNat < j := by
      by_contra hge
      have hjm : j ≤ mid.toNat := by omega
      rcases Nat.eq_or_lt_of_le hjm with heq | hltj
      · rw [hcg] at hlt
        have : (⟨j, hj⟩ : Fin l.length) = ⟨mid.toNat, hmlen⟩ := Fin.ext heq
        rw [← this, hjt] at hlt
        exact lt_irrefl t hlt
      · have := mono ⟨j, hj⟩ ⟨mid.toNat, hmlen⟩ hltj
        rw [hjt, ← hcg] at this
        omega
    unfold bsAux
    simp only [dif_pos hlr, hget, if_neg hne, if_pos hlt]
    exact ih (by omega) hlen (by omega) hjr
  | case4 left right hlr mid c hget hne hge ih =>
    intro h0 hlen hlj hjr
    have hmlen : mid.toNat < l.length := by
      unfold listGetChecked at hget
      by_cases hcond : 0 ≤ mid ∧ mid < (l.length : Int)
      · omega
      · rw [if_neg hcond] at hget; exact absurd hget (by simp)
    have hcg : c = l.get ⟨mid.toNat, hmlen⟩ := by
      unfold listGetChecked at hget
      rw [if_pos ⟨by omega, by omega⟩] at hget
      obtain ⟨h', hg⟩ := List.get?_eq_some.mp hget
      exact hg.symm
    have hgt : c.course_id > t := by
      rcases lt_trichotomy c.course_id t with h | h | h
      · exact absurd h hge
      · exact absurd h hne
      · exact h
    have hjmid : j < mid.toNat := by
      by_contra hle
      have hmj : mid.toNat ≤ j := by omega
      rcases Nat.eq_or_lt_of_le hmj with heq | hltm
      · rw [hcg] at hgt
        have : (⟨mid.toNat, hmlen⟩ : Fin l.length) = ⟨j, hj⟩ := Fin.ext heq
        rw [this, hjt] at hgt
        exact lt_irrefl t hgt
      · have := mono ⟨mid.toNat, hmlen⟩ ⟨j, hj⟩ hltm
        rw [hjt, ← hcg] at this
        omega
    unfold bsAux
    simp only [dif_pos hlr, hget, if_neg hne, if_neg hge]
    exact ih h0 (by omega) hlj (by omega)
  | case5 left right hlr =>
    intro h0 hlen hlj hjr
    omega

/-- When no element carries the target id, the loop reports not-found. -/
theorem bsAux_notfound (l : List Course) (t : Int)
    (habs : ∀ c ∈ l, c.course_id ≠ t) :
    ∀ (left right : Int), 0 ≤ left → right < l.length →
      bsAux l t left right = some none := by
  intro left right
  induction left, right using bsAux.induct l t with
  | case1 left right hlr mid hget =>
    intro h0 hlen
    exfalso
    unfold listGetChecked at hget
    rw [if_pos ⟨by omega, by omega⟩] at hget
    rw [List.get?_eq_none] at hget
    omega
  | case2 left right hlr mid c hget hc =>
    intro h0 hlen
    exfalso
    have hc_mem : c ∈ l := by
      unfold listGetChecked at hget
      rw [if_pos ⟨by omega, by omega⟩] at hget
      exact List.get?_mem hget
    exact habs c hc_mem hc
  | case3 left right hlr mid c hget hne hlt ih =>
    intro h0 hlen
    unfold bsAux
    simp only [dif_pos hlr, hget, if_neg hne, if_pos hlt]
    exact ih (by omega) hlen
  | case4 left right hlr mid c hget hne hge ih =>
    intro h0 hlen
    unfold bsAux
    simp only [dif_pos hlr, hget, if_neg hne, if_neg hge]
    exact ih h0 (by omega)
  | case5 left right hlr =>
    intro h0 hlen
    unfold bsAux
    simp only [dif_neg hlr]

/-- If a list's course ids are pairwise distinct, scanning it backwards finds
the same (unique) match as scanning it forwards. -/
theorem find?_reverse_of_nodup (l : List Course)
    (hnd : (l.map (fun c => c.course_id)).Nodup) (k : Int) :
    l.reverse.find? (fun c => c.course_id == k)
      = l.find? (fun c => c.course_id == k) := by
  induction l with
  | nil => rfl
  | cons a rest ih =>
    simp only [List.map_cons, List.nodup_cons, List.mem_map] at hnd
    obtain ⟨hna, hnr⟩ := hnd
    rw [List.reverse_cons, List.find?_append]
    by_cases ha : a.course_id == k
    · have hid : a.course_id = k := by simpa using ha
      have hrest : rest.reverse.find? (fun c => c.course_id == k) = none := by
        rw [List.find?_eq_none]
        intro c hc
        intro hck
        have hck' : c.course_id = k := by simpa using hck
        exact hna ⟨c, List.mem_reverse.mp hc, by rw [hck', hid]⟩
      rw [hrest]
      simp only [Option.none_or]
      simp only [List.find?_cons, ha]
    · rw [ih hnr]
      simp only [List.find?_cons, ha]
      cases rest.find? (fun c => c.course_id == k) <;> rfl

/-- C3: on a strictly id-sorted course list, binary search and the hash
index built from the same list agree on every id — the same course when the
id is present, and not-found on both sides when it is absent.  The outer
`some` additionally records that the search accessed no index out of bounds. -/
theorem binary_search_agrees_with_index (l : List Course) (hs : SortedById l)
    (k : Int) :
    binary_search l k = some (indexFind (build_course_index l) k) := by
  have hnd : (l.map (fun c => c.course_id)).Nodup := by
    simp only [List.Nodup, List.pairwise_map]
    exact hs.imp (fun h => ne_of_lt h)
  rw [indexFind_build_course_index, find?_reverse_of_nodup l hnd]
  unfold binary_search
  cases hf : l.find? (fun c => c.course_id == k) with
  | none =>
    apply bsAux_notfound l k _ 0 ((l.length : Int) - 1) le_rfl (by omega)
    intro c hc hck
    have := List.find?_eq_none.mp hf c hc
    simp only [hck, beq_self_eq_true] at this
    exact this trivial
  | some c =>
    have hmem : c ∈ l := List.mem_of_find?_eq_some hf
    have hck : c.course_id = k := by
      have := List.find?_some hf
      simpa using this
    obtain ⟨⟨j, hj⟩, hgj⟩ := List.mem_iff_get.mp hmem
    have := bsAux_found l k hs j hj (by rw [hgj, hck]) 0 ((l.length : Int) - 1)
      le_rfl (by omega) (by omega) (by omega)
    rw [this, hgj]

/-- Closed instance of `binary_search_agrees_with_index`. -/
theorem binary_search_agrees_witness :
    binary_search bsList 3 = some (indexFind (build_course_index bsList) 3) :=
  binary_search_agrees_with_index bsList (by unfold SortedById; decide) 3

/-- A position returned by `_id_to_index` is inside the course list and its
course carries the looked-up id. -/
theorem idToIndex_some (courses : List Course) (k : Int) (i : Nat)
    (h : idToIndex courses k = some i) :
    ∃ (hi : i < courses.length), (courses.get ⟨i, hi⟩).course_id = k := by
  unfold idToIndex at h
  have hfold : (courses.enum.foldl (fun m p => (p.2.course_id, p.1) :: m) [])
      = (courses.enum.map (fun p => (p.2.course_id, p.1))).reverse ++ [] :=
    foldl_cons_rev _ _ _
  rw [hfold, List.append_nil] at h
  cases hf : (courses.enum.map fun p => (p.2.course_id, p.1)).reverse.find?
      (fun q => q.1 == k) with
  | none => rw [hf] at h; exact absurd h (by simp)
  | some q =>
    rw [hf] at h
    simp only [Option.map_some'] at h
    have hqmem := List.mem_of_find?_eq_some hf
    rw [List.mem_reverse, List.mem_map] at hqmem
    obtain ⟨p, hp, hpq⟩ := hqmem
    have hq1 : q.1 = k := by simpa using List.find?_some hf
    obtain ⟨pi, pc⟩ := p
    have hpg : courses[pi]? = some pc := List.mk_mem_enum_iff_getElem?.mp hp
    rw [List.getElem?_eq_some] at hpg
    obtain ⟨hlt, hget⟩ := hpg
    have hq2 : q.2 = i := by simpa using h
    have hq2' : q.2 = pi := by rw [← hpq]
    have hi : i = pi := by omega
    have hk : pc.course_id = k := by
      have : q.1 = pc.course_id := by rw [← hpq]
      omega
    subst hi
    refine ⟨hlt, ?_⟩
    rw [List.get_eq_getElem]
    simpa [hget] using hk

/-- Branch of `get_similar_courses` taken when the id resolves to a
position. -/
theorem get_similar_courses_eq (m : RecModel) (cid : Int) (k : Nat) (idx : Nat)
    (h : idToIndex m.courses cid = some idx) :
    get_similar_courses m cid k
      = (((((m.sim.getD idx []).enum.mergeSort
              (fun a b => decide (b.2 ≤ a.2))).filter
            (fun p => p.1 ≠ idx)).take k).map
          (fun p => m.courses.getD p.1 default)) := by
  unfold get_similar_courses
  rw [h]

/-- Positions within a nodup-by-id course list are determined by the id of
the course they hold. -/
theorem nodup_ids_get_inj (courses : List Course)
    (hnd : (courses.map (fun c => c.course_id)).Nodup)
    (i j : Nat) (hi : i < courses.length) (hj : j < courses.length)
    (h : (courses.get ⟨i, hi⟩).course_id = (courses.get ⟨j, hj⟩).course_id) :
    i = j := by
  have hlen : i < (courses.map (fun c => c.course_id)).length := by
    simpa using hi
  have hlen' : j < (courses.map (fun c => c.course_id)).length := by
    simpa using hj
  have hmg : (courses.map (fun c => c.course_id)).get ⟨i, hlen⟩
      = (courses.map (fun c => c.course_id)).get ⟨j, hlen'⟩ := by
    rw [List.get_map, List.get_map]
    exact h
  have := hnd.get_inj_iff.mp hmg
  exact congrArg Fin.val this

/-- C7: for an initialized model (square score matrix) over a catalog with
unique ids, `get_similar_courses` never returns the queried course, returns
at most `k` courses with no id repeated, and returns `[]` when the id is
unknown or the catalog is empty. -/
theorem similar_courses_spec (m : RecModel) (cid : Int) (k : Nat)
    (hdim : m.sim.length = m.courses.length)
    (hrow : ∀ row ∈ m.sim, row.length = m.courses.length)
    (hnd : (m.courses.map (fun c => c.course_id)).Nodup) :
    (∀ c ∈ get_similar_courses m cid k, c.course_id ≠ cid)
    ∧ (get_similar_courses m cid k).length ≤ k
    ∧ ((get_similar_courses m cid k).map (fun c => c.course_id)).Nodup
    ∧ (idToIndex m.courses cid = none → get_similar_courses m cid k = [])
    ∧ (m.courses = [] → get_similar_courses m cid k = []) := by
  cases hidx : idToIndex m.courses cid with
  | none =>
    have hres : get_similar_courses m cid k = [] := by
      unfold get_similar_courses; rw [hidx]
    refine ⟨?_, ?_, ?_, ?_, ?_⟩ <;> simp [hres]
  | some idx =>
    obtain ⟨hilt, hid⟩ := idToIndex_some m.courses cid idx hidx
    have hres := get_similar_courses_eq m cid k idx hidx
    set row := m.sim.getD idx [] with hrowdef
    set pairs := ((row.enum.mergeSort (fun a b => decide (b.2 ≤ a.2))).filter
      (fun p => p.1 ≠ idx)).take k with hpairsdef
    have hrowlen : row.length = m.courses.length := by
      have hidxsim : idx < m.sim.length := by omega
      rw [hrowdef, List.getD_eq_getElem _ _ hidxsim]
      exact hrow _ (List.getElem_mem hidxsim)
    have hpairs : ∀ p ∈ pairs, p.1 < m.courses.length ∧ p.1 ≠ idx := by
      intro p hp
      rw [hpairsdef] at hp
      have hp' := List.mem_of_mem_take hp
      rw [List.mem_filter] at hp'
      obtain ⟨hps, hpne⟩ := hp'
      rw [List.mem_mergeSort] at hps
      have hps' : p ∈ row.enumFrom 0 := hps
      have hlt := List.fst_lt_add_of_mem_enumFrom hps'
      exact ⟨by omega, by simpa using hpne⟩
    refine ⟨?_, ?_, ?_, ?_, ?_⟩
    · intro c hc
      rw [hres, List.mem_map] at hc
      obtain ⟨p, hp, hpc⟩ := hc
      obtain ⟨hplt, hpne⟩ := hpairs p hp
      intro hcontra
      apply hpne
      apply nodup_ids_get_inj m.courses hnd p.1 idx hplt hilt
      have h1 : m.courses.get ⟨p.1, hplt⟩ = c := by
        rw [List.get_eq_getElem, ← List.getD_eq_getElem m.courses default hplt]
        exact hpc
      rw [h1, hcontra, hid]
    · rw [hres, List.length_map, hpairsdef]
      exact List.length_take_le _ _
    · rw [hres]
      have hfst : (pairs.map Prod.fst).Nodup := by
        rw [hpairsdef]
        apply List.Sublist.nodup
          (List.Sublist.map Prod.fst (List.Sublist.trans
            (List.take_sublist _ _) (List.filter_sublist _)))
        have hperm : ((row.enum.mergeSort
              (fun a b => decide (b.2 ≤ a.2))).map Prod.fst).Perm
            (row.enum.map Prod.fst) :=
          (List.mergeSort_perm _ _).map Prod.fst
        exact hperm.nodup_iff.mpr (List.nodup_enum_map_fst _)
      have hcomp : ((pairs.map (fun p => m.courses.getD p.1 default)).map
            (fun c => c.course_id))
          = (pairs.map Prod.fst).map
            (fun i => (m.courses.getD i default).course_id) := by
        rw [List.map_map, List.map_map]
        rfl
      rw [hcomp]
      apply List.Nodup.map_on _ hfst
      intro i hi j hj hij
      rw [List.mem_map] at hi hj
      obtain ⟨p, hp, hpi⟩ := hi
      obtain ⟨q, hq, hqj⟩ := hj
      obtain ⟨hplt, -⟩ := hpairs p hp
      obtain ⟨hqlt, -⟩ := hpairs q hq
      subst hpi hqj
      apply nodup_ids_get_inj m.courses hnd p.1 q.1 hplt hqlt
      rw [List.get_eq_getElem, List.get_eq_getElem,
        ← List.getD_eq_getElem m.courses default hplt,
        ← List.getD_eq_getElem m.courses default hqlt]
      exact hij
    · intro hcontra
      simp [hidx] at hcontra
    · intro hempty
      have hbad : idx < m.courses.length := hilt
      rw [hempty] at hbad
      exact absurd hbad (by simp)

/-- Transitivity of the descending-rating comparator. -/
theorem ratingLE_trans (a b c : Course) :
    (decide (b.course_rating ≤ a.course_rating)) = true →
    (decide (c.course_rating ≤ b.course_rating)) = true →
    (decide (c.course_rating ≤ a.course_rating)) = true := by
  simp only [decide_eq_true_eq]
  exact fun h1 h2 => le_trans h2 h1

/-- Totality of the descending-rating comparator. -/
theorem ratingLE_total (a b : Course) :
    ((decide (b.course_rating ≤ a.course_rating))
      || (decide (a.course_rating ≤ b.course_rating))) = true := by
  simp only [Bool.or_eq_true, decide_eq_true_eq]
  exact le_total _ _

/-- An empty needle is a substring of every haystack. -/
theorem containsSub_of_isEmpty (hay : String) (s : String)
    (h : s.isEmpty = true) : containsSub hay s.toLower = true := by
  rw [String.isEmpty_iff] at h
  subst h
  unfold containsSub
  have h0 : "".toLower = "" := by
    unfold String.toLower String.map
    rw [String.mapAux]
    rfl
  rw [h0]
  simp [String.toList]

/-- A member of the filtered candidate pool is in the catalog and passes
every supplied filter. -/
theorem mem_applyFilters (courses_list : List Course)
    (category difficulty : Option String) (mh mr : Option ℚ) (c : Course)
    (hc : c ∈ applyFilters courses_list category difficulty mh mr) :
    c ∈ courses_list
    ∧ (∀ s, category = some s → containsSub c.category.toLower s.toLower = true)
    ∧ (∀ s, difficulty = some s →
        containsSub c.course_difficulty.toLower s.toLower = true)
    ∧ (∀ h, mh = some h → (c.est_hours : ℚ) ≤ h)
    ∧ (∀ r, mr = some r → r ≤ c.course_rating) := by
  unfold applyFilters at hc
  have step4 : ∀ (l : List Course),
      c ∈ (match mr with
            | some r => l.filter (fun x : Course => decide (r ≤ x.course_rating))
            | none => l) →
      c ∈ l ∧ (∀ r, mr = some r → r ≤ c.course_rating) := by
    intro l hcl
    cases mr with
    | none => exact ⟨hcl, fun r hr => Option.noConfusion hr⟩
    | some r =>
      rw [List.mem_filter] at hcl
      refine ⟨hcl.1, fun r' hr' => ?_⟩
      injection hr' with heq
      subst heq
      simpa using hcl.2
  have step3 : ∀ (l : List Course),
      c ∈ (match mh with
            | some hh => l.filter (fun x : Course => decide ((x.est_hours : ℚ) ≤ hh))
            | none => l) →
      c ∈ l ∧ (∀ hh, mh = some hh → (c.est_hours : ℚ) ≤ hh) := by
    intro l hcl
    cases mh with
    | none => exact ⟨hcl, fun hh hhh => Option.noConfusion hhh⟩
    | some hh =>
      rw [List.mem_filter] at hcl
      refine ⟨hcl.1, fun hh' hhh' => ?_⟩
      injection hhh' with heq
      subst heq
      simpa using hcl.2
  have step2 : ∀ (l : List Course),
      c ∈ (match difficulty with
            | some s =>
              if s.isEmpty then l
              else l.filter (fun x : Course => containsSub x.course_difficulty.toLower s.toLower)
            | none => l) →
      c ∈ l ∧ (∀ s, difficulty = some s →
        containsSub c.course_difficulty.toLower s.toLower = true) := by
    intro l hcl
    cases difficulty with
    | none => exact ⟨hcl, fun s hs => Option.noConfusion hs⟩
    | some s =>
      dsimp only at hcl
      by_cases hse : s.isEmpty
      · rw [if_pos hse] at hcl
        refine ⟨hcl, fun s' hs' => ?_⟩
        injection hs' with heq
        subst heq
        exact containsSub_of_isEmpty _ s hse
      · rw [if_neg hse] at hcl
        rw [List.mem_filter] at hcl
        refine ⟨hcl.1, fun s' hs' => ?_⟩
        injection hs' with heq
        subst heq
        exact hcl.2
  have step1 : ∀ (l : List Course),
      c ∈ (match category with
            | some s =>
              if s.isEmpty then l
              else l.filter (fun x : Course => containsSub x.category.toLower s.toLower)
            | none => l) →
      c ∈ l ∧ (∀ s, category = some s →
        containsSub c.category.toLower s.toLower = true) := by
    intro l hcl
    cases category with
    | none => exact ⟨hcl, fun s hs => Option.noConfusion hs⟩
    | some s =>
      dsimp only at hcl
      by_cases hse : s.isEmpty
      · rw [if_pos hse] at hcl
        refine ⟨hcl, fun s' hs' => ?_⟩
        injection hs' with heq
        subst heq
        exact containsSub_of_isEmpty _ s hse
      · rw [if_neg hse] at hcl
        rw [List.mem_filter] at hcl
        refine ⟨hcl.1, fun s' hs' => ?_⟩
        injection hs' with heq
        subst heq
        exact hcl.2
  obtain ⟨hc3, h4⟩ := step4 _ hc
  obtain ⟨hc2, h3⟩ := step3 _ hc3
  obtain ⟨hc1, h2⟩ := step2 _ hc2
  obtain ⟨hc0, h1⟩ := step1 _ hc1
  exact ⟨hc0, h1, h2, h3, h4⟩

/-- Stability of the rating sort: the sorted list restricted to any one
rating value is exactly the input restricted to it, in the input's order. -/
theorem mergeSort_rating_filter_eq (l : List Course) (q : ℚ) :
    ((l.mergeSort (fun a b => decide (b.course_rating ≤ a.course_rating))).filter
        (fun c => c.course_rating == q))
      = l.filter (fun c => c.course_rating == q) := by
  have hperm : ((l.mergeSort (fun a b => decide (b.course_rating ≤ a.course_rating))).filter
        (fun c => c.course_rating == q)).Perm (l.filter (fun c => c.course_rating == q)) :=
    (List.mergeSort_perm l _).filter _
  have hpw : (l.filter (fun c => c.course_rating == q)).Pairwise
      (fun a b => (decide (b.course_rating ≤ a.course_rating)) = true) := by
    apply List.pairwise_of_forall_mem_list
    intro a ha b hb
    rw [List.mem_filter] at ha hb
    have ha' : a.course_rating = q := by simpa using ha.2
    have hb' : b.course_rating = q := by simpa using hb.2
    simp [ha', hb']
  have hsub : List.Sublist (l.filter (fun c => c.course_rating == q))
      (l.mergeSort (fun a b => decide (b.course_rating ≤ a.course_rating))) :=
    List.sublist_mergeSort ratingLE_trans ratingLE_total hpw (List.filter_sublist l)
  have hsub2 : List.Sublist (l.filter (fun c => c.course_rating == q))
      ((l.mergeSort (fun a b => decide (b.course_rating ≤ a.course_rating))).filter
        (fun c => c.course_rating == q)) := by
    have h2 := hsub.filter (fun c => c.course_rating == q)
    rw [List.filter_filter] at h2
    have hfun : (List.filter
          (fun a : Course => (a.course_rating == q) && (a.course_rating == q)) l)
        = List.filter (fun c : Course => c.course_rating == q) l := by
      apply List.filter_congr
      intro x hx
      exact Bool.and_self _
    rwa [hfun] at h2
  exact ((hsub2.eq_of_length (hperm.length_eq.symm)).symm)

/-- C8: every course returned by the filtered recommender passes all
supplied filters; the output is sorted by rating descending, stable on ties
(its restriction to any rating value is a sublist of the filtered pool's),
and has exactly `min k (pool size)` entries (hence at most `k`); with no
filters supplied it is a top-`k` selection of the whole catalog by rating:
`min k n` courses that, together with a remainder completing a permutation
of the catalog, dominate every remaining course's rating. -/
theorem recommend_filters_spec (courses_list : List Course)
    (category difficulty : Option String) (mh mr : Option ℚ) (k : Nat) :
    (∀ c ∈ recommend_by_filters courses_list category difficulty mh mr k,
      (∀ s, category = some s → containsSub c.category.toLower s.toLower = true)
      ∧ (∀ s, difficulty = some s →
          containsSub c.course_difficulty.toLower s.toLower = true)
      ∧ (∀ h, mh = some h → (c.est_hours : ℚ) ≤ h)
      ∧ (∀ r, mr = some r → r ≤ c.course_rating))
    ∧ (recommend_by_filters courses_list category difficulty mh mr k).Pairwise
        (fun a b => b.course_rating ≤ a.course_rating)
    ∧ (∀ q : ℚ,
        List.Sublist
          ((recommend_by_filters courses_list category difficulty mh mr k).filter
            (fun c => c.course_rating == q))
          ((applyFilters courses_list category difficulty mh mr).filter
            (fun c => c.course_rating == q)))
    ∧ (recommend_by_filters courses_list category difficulty mh mr k).length ≤ k
    ∧ (recommend_by_filters courses_list category difficulty mh mr k).length
        = min k (applyFilters courses_list category difficulty mh mr).length
    ∧ (category = none → difficulty = none → mh = none → mr = none →
        ∃ rest, courses_list.Perm
            (recommend_by_filters courses_list category difficulty mh mr k ++ rest)
          ∧ (recommend_by_filters courses_list category difficulty mh mr k).length
              = min k courses_list.length
          ∧ ∀ x ∈ recommend_by_filters courses_list category difficulty mh mr k,
              ∀ y ∈ rest, y.course_rating ≤ x.course_rating) := by
  have hsorted : ((applyFilters courses_list category difficulty mh mr).mergeSort
        (fun a b => decide (b.course_rating ≤ a.course_rating))).Pairwise
      (fun a b => (decide (b.course_rating ≤ a.course_rating)) = true) :=
    List.sorted_mergeSort ratingLE_trans ratingLE_total _
  refine ⟨?_, ?_, ?_, ?_, ?_, ?_⟩
  · intro c hc
    unfold recommend_by_filters at hc
    have hc' : c ∈ applyFilters courses_list category difficulty mh mr := by
      have := List.mem_of_mem_take hc
      rwa [List.mem_mergeSort] at this
    obtain ⟨-, h1, h2, h3, h4⟩ :=
      mem_applyFilters courses_list category difficulty mh mr c hc'
    exact ⟨h1, h2, h3, h4⟩
  · unfold recommend_by_filters
    exact ((hsorted.sublist (List.take_sublist _ _)).imp
      (fun h => by simpa using h))
  · intro q
    unfold recommend_by_filters
    rw [← mergeSort_rating_filter_eq (applyFilters courses_list category difficulty mh mr) q]
    exact List.Sublist.filter _ (List.take_sublist _ _)
  · unfold recommend_by_filters
    exact List.length_take_le _ _
  · unfold recommend_by_filters
    rw [List.length_take, List.length_mergeSort]
  · intro h1 h2 h3 h4
    subst h1; subst h2; subst h3; subst h4
    have hfl : applyFilters courses_list none none none none = courses_list := rfl
    refine ⟨(courses_list.mergeSort
        (fun a b => decide (b.course_rating ≤ a.course_rating))).drop k, ?_, ?_, ?_⟩
    · unfold recommend_by_filters
      rw [hfl, List.take_append_drop]
      exact (List.mergeSort_perm courses_list _).symm
    · unfold recommend_by_filters
      rw [hfl, List.length_take, List.length_mergeSort]
    · intro x hx y hy
      unfold recommend_by_filters at hx
      rw [hfl] at hx
      have hpw := hsorted
      rw [hfl, ← List.take_append_drop k (courses_list.mergeSort
        (fun a b => decide (b.course_rating ≤ a.course_rating)))] at hpw
      have := (List.pairwise_append.mp hpw).2.2 x hx y hy
      simpa using this

/-- Closed instances of `recommend_filters_spec`: one run with a category
filter and one run with no filters at all, the latter exercising the
top-`k` conjunct non-vacuously (`min 2 3 = 2` courses returned). -/
theorem recommend_filters_witness :
    ((∀ c ∈ recommend_by_filters recCourses (some "math") none none none 2,
      (∀ s, (some "math" : Option String) = some s →
          containsSub c.category.toLower s.toLower = true)
      ∧ (∀ s, (none : Option String) = some s →
          containsSub c.course_difficulty.toLower s.toLower = true)
      ∧ (∀ h, (none : Option ℚ) = some h → (c.est_hours : ℚ) ≤ h)
      ∧ (∀ r, (none : Option ℚ) = some r → r ≤ c.course_rating))
    ∧ (recommend_by_filters recCourses (some "math") none none none 2).Pairwise
        (fun a b => b.course_rating ≤ a.course_rating)
    ∧ (∀ q : ℚ,
        List.Sublist
          ((recommend_by_filters recCourses (some "math") none none none 2).filter
            (fun c => c.course_rating == q))
          ((applyFilters recCourses (some "math") none none none).filter
            (fun c => c.course_rating == q)))
    ∧ (recommend_by_filters recCourses (some "math") none none none 2).length ≤ 2
    ∧ (recommend_by_filters recCourses (some "math") none none none 2).length
        = min 2 (applyFilters recCourses (some "math") none none none).length
    ∧ ((some "math" : Option String) = none → (none : Option String) = none →
        (none : Option ℚ) = none → (none : Option ℚ) = none →
        ∃ rest, recCourses.Perm
            (recommend_by_filters recCourses (some "math") none none none 2 ++ rest)
          ∧ (recommend_by_filters recCourses (some "math") none none none 2).length
              = min 2 recCourses.length
          ∧ ∀ x ∈ recommend_by_filters recCourses (some "math") none none none 2,
              ∀ y ∈ rest, y.course_rating ≤ x.course_rating))
    ∧ ((∀ c ∈ recommend_by_filters recCourses none none none none 2,
      (∀ s, (none : Option String) = some s →
          containsSub c.category.toLower s.toLower = true)
      ∧ (∀ s, (none : Option String) = some s →
          containsSub c.course_difficulty.toLower s.toLower = true)
      ∧ (∀ h, (none : Option ℚ) = some h → (c.est_hours : ℚ) ≤ h)
      ∧ (∀ r, (none : Option ℚ) = some r → r ≤ c.course_rating))
    ∧ (recommend_by_filters recCourses none none none none 2).Pairwise
        (fun a b => b.course_rating ≤ a.course_rating)
    ∧ (∀ q : ℚ,
        List.Sublist
          ((recommend_by_filters recCourses none none none none 2).filter
            (fun c => c.course_rating == q))
          ((applyFilters recCourses none none none none).filter
            (fun c => c.course_rating == q)))
    ∧ (recommend_by_filters recCourses none none none none 2).length ≤ 2
    ∧ (recommend_by_filters recCourses none none none none 2).length
        = min 2 (applyFilters recCourses none none none none).length
    ∧ ((none : Option String) = none → (none : Option String) = none →
        (none : Option ℚ) = none → (none : Option ℚ) = none →
        ∃ rest, recCourses.Perm
            (recommend_by_filters recCourses none none none none 2 ++ rest)
          ∧ (recommend_by_filters recCourses none none none none 2).length
              = min 2 recCourses.length
          ∧ ∀ x ∈ recommend_by_filters recCourses none none none none 2,
              ∀ y ∈ rest, y.course_rating ≤ x.course_rating)) :=
  ⟨recommend_filters_spec recCourses (some "math") none none none 2,
   recommend_filters_spec recCourses none none none none 2⟩

/-- Removing from a frontier every occurrence of a pid that is already seen
(or dangling) leaves the seen set, the level and the next frontier unchanged;
only the cycle flag can weaken (each removed occurrence could only have set
it). -/
theorem processFrontier_filter_out (idx : Index) (pid : Int) :
    ∀ (f s : List Int), (pid ∈ s ∨ indexFind idx pid = none) →
      (processFrontier idx (f.filter (fun y => y ≠ pid)) s).seen
        = (processFrontier idx f s).seen
      ∧ (processFrontier idx (f.filter (fun y => y ≠ pid)) s).level
        = (processFrontier idx f s).level
      ∧ (processFrontier idx (f.filter (fun y => y ≠ pid)) s).next
        = (processFrontier idx f s).next
      ∧ ((processFrontier idx (f.filter (fun y => y ≠ pid)) s).cyc = true
        → (processFrontier idx f s).cyc = true) := by
  intro f
  induction f with
  | nil => intro s hyp; exact ⟨rfl, rfl, rfl, fun h => h⟩
  | cons q rest ih =>
    intro s hyp
    by_cases hq : q = pid
    · subst hq
      have hfq : ((q :: rest).filter (fun y => y ≠ q))
          = rest.filter (fun y => y ≠ q) := by
        simp [List.filter_cons]
      rw [hfq]
      rcases hyp with hmem | hnone
      · have hRHS : processFrontier idx (q :: rest) s
            = { processFrontier idx rest s with cyc := true } := by
          simp only [processFrontier, if_pos hmem]
        rw [hRHS]
        obtain ⟨e1, e2, e3, e4⟩ := ih s (Or.inl hmem)
        exact ⟨e1, e2, e3, fun _ => rfl⟩
      · by_cases hmem : q ∈ s
        · have hRHS : processFrontier idx (q :: rest) s
              = { processFrontier idx rest s with cyc := true } := by
            simp only [processFrontier, if_pos hmem]
          rw [hRHS]
          obtain ⟨e1, e2, e3, e4⟩ := ih s (Or.inr hnone)
          exact ⟨e1, e2, e3, fun _ => rfl⟩
        · have hRHS : processFrontier idx (q :: rest) s
              = processFrontier idx rest s := by
            simp only [processFrontier, if_neg hmem, hnone]
          rw [hRHS]
          exact ih s (Or.inr hnone)
    · have hfq : ((q :: rest).filter (fun y => y ≠ pid))
          = q :: rest.filter (fun y => y ≠ pid) := by
        simp [List.filter_cons, hq]
      rw [hfq]
      by_cases hmem : q ∈ s
      · have hL : processFrontier idx (q :: rest.filter (fun y => y ≠ pid)) s
            = { processFrontier idx (rest.filter (fun y => y ≠ pid)) s with cyc := true } := by
          simp only [processFrontier, if_pos hmem]
        have hR : processFrontier idx (q :: rest) s
            = { processFrontier idx rest s with cyc := true } := by
          simp only [processFrontier, if_pos hmem]
        rw [hL, hR]
        obtain ⟨e1, e2, e3, e4⟩ := ih s hyp
        exact ⟨e1, e2, e3, fun _ => rfl⟩
      · cases hfind : indexFind idx q with
        | none =>
          have hL : processFrontier idx (q :: rest.filter (fun y => y ≠ pid)) s
              = processFrontier idx (rest.filter (fun y => y ≠ pid)) s := by
            simp only [processFrontier, if_neg hmem, hfind]
          have hR : processFrontier idx (q :: rest) s
              = processFrontier idx rest s := by
            simp only [processFrontier, if_neg hmem, hfind]
          rw [hL, hR]
          exact ih s hyp
        | some course =>
          have hyp' : pid ∈ (q :: s) ∨ indexFind idx pid = none := by
            rcases hyp with hmem' | hnone
            · exact Or.inl (List.mem_cons_of_mem q hmem')
            · exact Or.inr hnone
          have hL : processFrontier idx (q :: rest.filter (fun y => y ≠ pid)) s
              = { seen := (processFrontier idx (rest.filter (fun y => y ≠ pid)) (q :: s)).seen
                  level := course :: (processFrontier idx (rest.filter (fun y => y ≠ pid)) (q :: s)).level
                  next := course.prerequisite_ids.filter (fun x => !(q :: s).contains x)
                    ++ (processFrontier idx (rest.filter (fun y => y ≠ pid)) (q :: s)).next
                  cyc := (processFrontier idx (rest.filter (fun y => y ≠ pid)) (q :: s)).cyc } := by
            simp only [processFrontier, if_neg hmem, hfind]
          have hR : processFrontier idx (q :: rest) s
              = { seen := (processFrontier idx rest (q :: s)).seen
                  level := course :: (processFrontier idx rest (q :: s)).level
                  next := course.prerequisite_ids.filter (fun x => !(q :: s).contains x)
                    ++ (processFrontier idx rest (q :: s)).next
                  cyc := (processFrontier idx rest (q :: s)).cyc } := by
            simp only [processFrontier, if_neg hmem, hfind]
          rw [hL, hR]
          obtain ⟨e1, e2, e3, e4⟩ := ih (q :: s) hyp'
          exact ⟨e1, by rw [e2], by rw [e3], fun hcyc => e4 hcyc⟩

/-- Deduplicating a frontier (keeping first occurrences) leaves the seen set,
the level and the next frontier unchanged; the deduplicated run's cycle flag
implies the original's. -/
theorem processFrontier_dedupFirst (idx : Index) :
    ∀ (f s : List Int),
      (processFrontier idx (dedupFirst f) s).seen = (processFrontier idx f s).seen
      ∧ (processFrontier idx (dedupFirst f) s).level = (processFrontier idx f s).level
      ∧ (processFrontier idx (dedupFirst f) s).next = (processFrontier idx f s).next
      ∧ ((processFrontier idx (dedupFirst f) s).cyc = true
        → (processFrontier idx f s).cyc = true) := by
  intro f
  induction f using dedupFirst.induct with
  | case1 =>
    intro s
    have h0 : dedupFirst [] = [] := by rw [dedupFirst]
    rw [h0]
    exact ⟨rfl, rfl, rfl, fun h => h⟩
  | case2 x xs ih =>
    intro s
    have hdd : dedupFirst (x :: xs) = x :: dedupFirst (xs.filter (fun y => y ≠ x)) := by
      rw [dedupFirst]
    rw [hdd]
    by_cases hmem : x ∈ s
    · have hL : processFrontier idx (x :: dedupFirst (xs.filter (fun y => y ≠ x))) s
          = { processFrontier idx (dedupFirst (xs.filter (fun y => y ≠ x))) s with cyc := true } := by
        simp only [processFrontier, if_pos hmem]
      have hR : processFrontier idx (x :: xs) s
          = { processFrontier idx xs s with cyc := true } := by
        simp only [processFrontier, if_pos hmem]
      rw [hL, hR]
      obtain ⟨e1, e2, e3, e4⟩ := ih s
      obtain ⟨f1, f2, f3, f4⟩ := processFrontier_filter_out idx x xs s (Or.inl hmem)
      exact ⟨e1.trans f1, e2.trans f2, e3.trans f3, fun _ => rfl⟩
    · cases hfind : indexFind idx x with
      | none =>
        have hL : processFrontier idx (x :: dedupFirst (xs.filter (fun y => y ≠ x))) s
            = processFrontier idx (dedupFirst (xs.filter (fun y => y ≠ x))) s := by
          simp only [processFrontier, if_neg hmem, hfind]
        have hR : processFrontier idx (x :: xs) s
            = processFrontier idx xs s := by
          simp only [processFrontier, if_neg hmem, hfind]
        rw [hL, hR]
        obtain ⟨e1, e2, e3, e4⟩ := ih s
        obtain ⟨f1, f2, f3, f4⟩ := processFrontier_filter_out idx x xs s (Or.inr hfind)
        exact ⟨e1.trans f1, e2.trans f2, e3.trans f3, fun h => f4 (e4 h)⟩
      | some course =>
        have hL : processFrontier idx (x :: dedupFirst (xs.filter (fun y => y ≠ x))) s
            = { seen := (processFrontier idx (dedupFirst (xs.filter (fun y => y ≠ x))) (x :: s)).seen
                level := course :: (processFrontier idx (dedupFirst (xs.filter (fun y => y ≠ x))) (x :: s)).level
                next := course.prerequisite_ids.filter (fun z => !(x :: s).contains z)
                  ++ (processFrontier idx (dedupFirst (xs.filter (fun y => y ≠ x))) (x :: s)).next
                cyc := (processFrontier idx (dedupFirst (xs.filter (fun y => y ≠ x))) (x :: s)).cyc } := by
          simp only [processFrontier, if_neg hmem, hfind]
        have hR : processFrontier idx (x :: xs) s
            = { seen := (processFrontier idx xs (x :: s)).seen
                level := course :: (processFrontier idx xs (x :: s)).level
                next := course.prerequisite_ids.filter (fun z => !(x :: s).contains z)
                  ++ (processFrontier idx xs (x :: s)).next
                cyc := (processFrontier idx xs (x :: s)).cyc } := by
          simp only [processFrontier, if_neg hmem, hfind]
        rw [hL, hR]
        obtain ⟨e1, e2, e3, e4⟩ := ih (x :: s)
        obtain ⟨f1, f2, f3, f4⟩ :=
          processFrontier_filter_out idx x xs (x :: s) (Or.inl (List.mem_cons_self x s))
        exact ⟨e1.trans f1, by rw [e2, f2], by rw [e3, f3], fun h => f4 (e4 h)⟩

/-- Lifting `processFrontier_dedupFirst` through the depth-capped walk: after
the first frontier both runs coincide. -/
theorem bfsLoop_dedupFirst (idx : Index) (fuel : Nat) (f s : List Int) :
    (bfsLoop idx fuel (dedupFirst f) s).1 = (bfsLoop idx fuel f s).1
    ∧ ((bfsLoop idx fuel (dedupFirst f) s).2 = true
      → (bfsLoop idx fuel f s).2 = true) := by
  cases fuel with
  | zero => exact ⟨rfl, fun h => h⟩
  | succ n =>
    cases f with
    | nil =>
      have h0 : dedupFirst [] = [] := by rw [dedupFirst]
      rw [h0]
      exact ⟨rfl, fun h => h⟩
    | cons x xs =>
      have hdd : dedupFirst (x :: xs) = x :: dedupFirst (xs.filter (fun y => y ≠ x)) := by
        rw [dedupFirst]
      obtain ⟨e1, e2, e3, e4⟩ := processFrontier_dedupFirst idx (x :: xs) s
      have hne1 : ((dedupFirst (x :: xs)).isEmpty) = false := by rw [hdd]; rfl
      have hne2 : ((x :: xs).isEmpty) = false := rfl
      have hL : bfsLoop idx (n + 1) (dedupFirst (x :: xs)) s
          = ((if (processFrontier idx (dedupFirst (x :: xs)) s).level.isEmpty
                then (bfsLoop idx n (processFrontier idx (dedupFirst (x :: xs)) s).next
                  (processFrontier idx (dedupFirst (x :: xs)) s).seen).1
                else (processFrontier idx (dedupFirst (x :: xs)) s).level
                  :: (bfsLoop idx n (processFrontier idx (dedupFirst (x :: xs)) s).next
                    (processFrontier idx (dedupFirst (x :: xs)) s).seen).1),
              (processFrontier idx (dedupFirst (x :: xs)) s).cyc
                || (bfsLoop idx n (processFrontier idx (dedupFirst (x :: xs)) s).next
                  (processFrontier idx (dedupFirst (x :: xs)) s).seen).2) := by
        rw [hdd]
        simp only [bfsLoop, List.isEmpty_cons, if_false, Bool.false_eq_true]
      have hR : bfsLoop idx (n + 1) (x :: xs) s
          = ((if (processFrontier idx (x :: xs) s).level.isEmpty
                then (bfsLoop idx n (processFrontier idx (x :: xs) s).next
                  (processFrontier idx (x :: xs) s).seen).1
                else (processFrontier idx (x :: xs) s).level
                  :: (bfsLoop idx n (processFrontier idx (x :: xs) s).next
                    (processFrontier idx (x :: xs) s).seen).1),
              (processFrontier idx (x :: xs) s).cyc
                || (bfsLoop idx n (processFrontier idx (x :: xs) s).next
                  (processFrontier idx (x :: xs) s).seen).2) := by
        simp only [bfsLoop, List.isEmpty_cons, if_false, Bool.false_eq_true]
      rw [hL, hR, e1, e2, e3]
      refine ⟨rfl, ?_⟩
      intro hor
      rcases Bool.or_eq_true_iff.mp hor with hcyc | hrest
      · exact Bool.or_eq_true_iff.mpr (Or.inl (e4 hcyc))
      · exact Bool.or_eq_true_iff.mpr (Or.inr hrest)

/-- C9, amended: running the walk on the target's prerequisite list
deduplicated (first occurrences kept, as the spec prescribes) reproduces
exactly the levels — hence the flat path and total hours — that
`get_learning_path` returns on the raw list; only the cycle flag can differ,
and only in the direction that the raw run flags at least as much as the
deduplicated run. -/
theorem dedup_frontier_same_path (idx : Index) (id : Int) (t : Course)
    (r : PathResult) (h : indexFind idx id = some t)
    (hr : get_learning_path id idx 20 = some r) :
    r.levels = (bfsLoop idx 20 (dedupFirst t.prerequisite_ids) []).1
    ∧ r.flat_path = buildFlatPath (bfsLoop idx 20 (dedupFirst t.prerequisite_ids) []).1
    ∧ r.total_hours = ((buildFlatPath (bfsLoop idx 20 (dedupFirst t.prerequisite_ids) []).1).map
        (fun c => c.est_hours)).sum
    ∧ ((bfsLoop idx 20 (dedupFirst t.prerequisite_ids) []).2 = true
      → r.cycle_detected = true) := by
  unfold get_learning_path at hr
  rw [h] at hr
  simp only [Option.some.injEq] at hr
  obtain ⟨e1, e2⟩ := bfsLoop_dedupFirst idx 20 t.prerequisite_ids []
  subst hr
  exact ⟨e1.symm, by rw [e1], by rw [e1], fun hc => e2 hc⟩

/-- Closed instance of `dedup_frontier_same_path` on the duplicated-prereq
catalog. -/
theorem dedup_frontier_same_path_witness :
    ((get_learning_path 2 c9DupIdx 20).getD default).levels
        = (bfsLoop c9DupIdx 20 (dedupFirst (mkC 2 6 [1, 1]).prerequisite_ids) []).1
    ∧ ((get_learning_path 2 c9DupIdx 20).getD default).flat_path
        = buildFlatPath (bfsLoop c9DupIdx 20 (dedupFirst (mkC 2 6 [1, 1]).prerequisite_ids) []).1
    ∧ ((get_learning_path 2 c9DupIdx 20).getD default).total_hours
        = ((buildFlatPath (bfsLoop c9DupIdx 20
            (dedupFirst (mkC 2 6 [1, 1]).prerequisite_ids) []).1).map
          (fun c => c.est_hours)).sum
    ∧ ((bfsLoop c9DupIdx 20 (dedupFirst (mkC 2 6 [1, 1]).prerequisite_ids) []).2 = true
      → ((get_learning_path 2 c9DupIdx 20).getD default).cycle_detected = true) :=
  dedup_frontier_same_path c9DupIdx 2 (mkC 2 6 [1, 1])
    ((get_learning_path 2 c9DupIdx 20).getD default) rfl (by rfl)

/-- Closed instance of `similar_courses_spec` on a two-course model. -/
theorem similar_courses_witness :
    (∀ c ∈ get_similar_courses simModel 1 5, c.course_id ≠ 1)
    ∧ (get_similar_courses simModel 1 5).length ≤ 5
    ∧ ((get_similar_courses simModel 1 5).map (fun c => c.course_id)).Nodup
    ∧ (idToIndex simModel.courses 1 = none → get_similar_courses simModel 1 5 = [])
    ∧ (simModel.courses = [] → get_similar_courses simModel 1 5 = []) :=
  similar_courses_spec simModel 1 5 (by decide) (by decide) (by decide)

end EduPath
